import Mathlib

set_option maxRecDepth 100000

/-!
# Verification of the educational DSA/ECDSA engine

Shallow embedding of the arithmetic utilities, the elliptic-curve group
operations and the instrumented DSA/ECDSA pipelines of
`src/backend/app.py`, together with proofs settling the frozen claims.

Conventions of the embedding:
* Python integers are `Int`; Python's `%` and `//` (floor convention) are
  `Int.fmod` and `Int.fdiv`, wrapped as `pyMod` and `pyFloorDiv`.
* A Python function that may raise `ValueError` is embedded with result
  type `Except PyErr _`; an uncaught exception propagating out of an
  engine function is a distinguished error outcome of that function's
  result type.
* The recursive `extended_gcd` is embedded with explicit fuel
  (`natAbs a + 1` steps always suffice, see `extended_gcd_rec` which
  recovers the source's recurrence exactly), so that every definition
  evaluates by kernel reduction.
* Trace records (Python dicts) are abstracted to their stage index and
  title; no claim depends on the remaining (string/numeric) payload.
-/

/-- Python's `%` operator on integers (floor-division convention:
the result has the sign of the modulus). -/
def pyMod (a b : Int) : Int := Int.fmod a b

/-- Python's `//` operator on integers (floor division). -/
def pyFloorDiv (a b : Int) : Int := Int.fdiv a b

/-- The `ValueError`s the engine can raise, with the data interpolated
into the corresponding Python message. -/
inductive PyErr where
  /-- `mod_inverse(a, m)`: "Modular inverse does not exist for {a} mod {m}". -/
  | noInverse (a m : Int)
  /-- `scalar_multiply`: "Negative scalar not supported …". -/
  | negScalar
  /-- Subscripting `None` (`Q[0]` when `Q` is the point at infinity). -/
  | noneSubscript
  deriving DecidableEq, Repr

deriving instance DecidableEq for Except

/-- Fuel-driven body of `extended_gcd`; `fuel ≥ natAbs a + 1` always
suffices, and the fuel-0 branch is never reached on such fuel. -/
def egcdAux : Nat → Int → Int → Int × Int × Int
  | 0, _, b => (b, 0, 1)
  | fuel + 1, a, b =>
    if a = 0 then (b, 0, 1)
    else
      let r := egcdAux fuel (pyMod b a) a
      (r.1, r.2.2 - pyFloorDiv b a * r.2.1, r.2.1)

/-- `extended_gcd(a, b)` from the source:
```
if a == 0: return b, 0, 1
gcd, x1, y1 = extended_gcd(b % a, a)
return gcd, y1 - (b // a) * x1, x1
```
(see `extended_gcd_rec` for the recurrence, proved below). -/
def extended_gcd (a b : Int) : Int × Int × Int :=
  egcdAux (a.natAbs + 1) a b

/-- `mod_inverse(a, m)` from the source: runs `extended_gcd(a % m, m)`,
raises (`.error`) when the returned gcd is not 1, otherwise returns
`(x % m + m) % m`. -/
def mod_inverse (a m : Int) : Except PyErr Int :=
  let r := extended_gcd (pyMod a m) m
  if r.1 ≠ 1 then .error (.noInverse a m)
  else .ok (pyMod (pyMod r.2.1 m + m) m)

/-- `pow_mod(base, exp, mod) = pow(base, exp, mod)`; the engine only
calls it with nonnegative exponents, so the exponent is a `Nat`
(Python's negative-exponent extension of `pow` is never exercised by
any claim). -/
def pow_mod (base : Int) (exp : Nat) (m : Int) : Int :=
  pyMod (base ^ exp) m

/-! ### SHA-256 (`hashlib.sha256`), modelled bit-exactly over `Nat`

`hash_message(message)` in the source is
`int(hashlib.sha256(message.encode()).hexdigest(), 16)`.  The library
digest is modelled here from the FIPS 180-4 specification, over `Nat`
with explicit reduction modulo `2^32`. -/

/-- 32-bit right rotation. -/
def rotr32 (n x : Nat) : Nat :=
  ((x >>> n) ||| (x <<< (32 - n))) % 4294967296

/-- SHA-256 Σ₀. -/
def bSig0 (x : Nat) : Nat := rotr32 2 x ^^^ rotr32 13 x ^^^ rotr32 22 x

/-- SHA-256 Σ₁. -/
def bSig1 (x : Nat) : Nat := rotr32 6 x ^^^ rotr32 11 x ^^^ rotr32 25 x

/-- SHA-256 σ₀. -/
def sSig0 (x : Nat) : Nat := rotr32 7 x ^^^ rotr32 18 x ^^^ (x >>> 3)

/-- SHA-256 σ₁. -/
def sSig1 (x : Nat) : Nat := rotr32 17 x ^^^ rotr32 19 x ^^^ (x >>> 10)

/-- SHA-256 round constants (FIPS 180-4, written in decimal; the table is validated by the test vectors proved below). -/
def shaK : List Nat :=
  [1116352408, 1899447441, 3049323471, 3921009573, 961987163, 1508970993,
   2453635748, 2870763221, 3624381080, 310598401, 607225278, 1426881987,
   1925078388, 2162078206, 2614888103, 3248222580, 3835390401, 4022224774,
   264347078, 604807628, 770255983, 1249150122, 1555081692, 1996064986,
   2554220882, 2821834349, 2952996808, 3210313671, 3336571891, 3584528711,
   113926993, 338241895, 666307205, 773529912, 1294757372, 1396182291,
   1695183700, 1986661051, 2177026350, 2456956037, 2730485921, 2820302411,
   3259730800, 3345764771, 3516065817, 3600352804, 4094571909, 275423344,
   430227734, 506948616, 659060556, 883997877, 958139571, 1322822218,
   1537002063, 1747873779, 1955562222, 2024104815, 2227730452, 2361852424,
   2428436474, 2756734187, 3204031479, 3329325298]

/-- The eight-word SHA-256 chaining state. -/
structure Sha8 where
  w0 : Nat
  w1 : Nat
  w2 : Nat
  w3 : Nat
  w4 : Nat
  w5 : Nat
  w6 : Nat
  w7 : Nat
  deriving DecidableEq, Repr

/-- SHA-256 initial hash value. -/
def shaH0 : Sha8 :=
  ⟨1779033703, 3144134277, 1013904242, 2773480762,
   1359893119, 2600822924, 528734635, 1541459225⟩

/-- SHA-256 padding: append `0x80`, zeros to 56 mod 64 bytes, then the
bit length as 8 big-endian bytes. -/
def shaPad (msg : List Nat) : List Nat :=
  let L := msg.length
  let zeros := (120 - ((L + 1) % 64)) % 64
  let bitLen := 8 * L
  msg ++ [0x80] ++ List.replicate zeros 0 ++
    [(bitLen >>> 56) % 256, (bitLen >>> 48) % 256, (bitLen >>> 40) % 256,
     (bitLen >>> 32) % 256, (bitLen >>> 24) % 256, (bitLen >>> 16) % 256,
     (bitLen >>> 8) % 256, bitLen % 256]

/-- Big-endian 32-bit words from bytes. -/
def wordsOfBytes : List Nat → List Nat
  | b0 :: b1 :: b2 :: b3 :: rest =>
    ((((b0 <<< 8) ||| b1) <<< 8 ||| b2) <<< 8 ||| b3) :: wordsOfBytes rest
  | _ => []

/-- Split a word list into 16-word blocks. -/
def blocks16 : List Nat → List (List Nat)
  | w0 :: w1 :: w2 :: w3 :: w4 :: w5 :: w6 :: w7 ::
    w8 :: w9 :: w10 :: w11 :: w12 :: w13 :: w14 :: w15 :: rest =>
    [w0, w1, w2, w3, w4, w5, w6, w7, w8, w9, w10, w11, w12, w13, w14, w15]
      :: blocks16 rest
  | _ => []

/-- Extend a 16-word block by `k` scheduled words. -/
def extendW (w : List Nat) : Nat → List Nat
  | 0 => w
  | k + 1 =>
    let i := w.length
    let nw := (w.getD (i - 16) 0 + sSig0 (w.getD (i - 15) 0) +
               w.getD (i - 7) 0 + sSig1 (w.getD (i - 2) 0)) % 4294967296
    extendW (w ++ [nw]) k

/-- One SHA-256 compression round. -/
def shaRound (st : Sha8) (k w : Nat) : Sha8 :=
  let t1 := (st.w7 + bSig1 st.w4 + ((st.w4 &&& st.w5) ^^^ ((4294967295 - st.w4) &&& st.w6)) +
             k + w) % 4294967296
  let t2 := (bSig0 st.w0 + ((st.w0 &&& st.w1) ^^^ (st.w0 &&& st.w2) ^^^ (st.w1 &&& st.w2))) %
             4294967296
  ⟨(t1 + t2) % 4294967296, st.w0, st.w1, st.w2,
   (st.w3 + t1) % 4294967296, st.w4, st.w5, st.w6⟩

/-- Run the 64 compression rounds. -/
def shaRounds : List Nat → List Nat → Sha8 → Sha8
  | k :: ks, w :: ws, st => shaRounds ks ws (shaRound st k w)
  | _, _, st => st

/-- Process one 16-word block into the chaining state. -/
def shaBlock (H : Sha8) (block : List Nat) : Sha8 :=
  let w := extendW block 48
  let s := shaRounds shaK w H
  ⟨(H.w0 + s.w0) % 4294967296, (H.w1 + s.w1) % 4294967296,
   (H.w2 + s.w2) % 4294967296, (H.w3 + s.w3) % 4294967296,
   (H.w4 + s.w4) % 4294967296, (H.w5 + s.w5) % 4294967296,
   (H.w6 + s.w6) % 4294967296, (H.w7 + s.w7) % 4294967296⟩

/-- Fold the blocks. -/
def shaBlocks : List (List Nat) → Sha8 → Sha8
  | [], H => H
  | b :: bs, H => shaBlocks bs (shaBlock H b)

/-- SHA-256 of a byte sequence, as the 256-bit big-endian integer
(`int(hexdigest, 16)`). -/
def sha256 (msg : List Nat) : Nat :=
  let H := shaBlocks (blocks16 (wordsOfBytes (shaPad msg))) shaH0
  ((((((H.w0 <<< 32 ||| H.w1) <<< 32 ||| H.w2) <<< 32 ||| H.w3) <<< 32 |||
     H.w4) <<< 32 ||| H.w5) <<< 32 ||| H.w6) <<< 32 ||| H.w7

/-- UTF-8 bytes of one code point (what `str.encode()` emits per
character). -/
def utf8Char (c : Nat) : List Nat :=
  if c < 0x80 then [c]
  else if c < 0x800 then
    [0xC0 ||| (c >>> 6), 0x80 ||| (c &&& 0x3F)]
  else if c < 0x10000 then
    [0xE0 ||| (c >>> 12), 0x80 ||| ((c >>> 6) &&& 0x3F), 0x80 ||| (c &&& 0x3F)]
  else
    [0xF0 ||| (c >>> 18), 0x80 ||| ((c >>> 12) &&& 0x3F),
     0x80 ||| ((c >>> 6) &&& 0x3F), 0x80 ||| (c &&& 0x3F)]

/-- `message.encode()`: UTF-8 bytes of the string. -/
def strBytes (s : String) : List Nat :=
  (s.data.map fun c => utf8Char c.toNat).flatten

/-- `hash_message(message)` from the source. -/
def hash_message (message : String) : Nat :=
  sha256 (strBytes message)

/-! ### Elliptic curve group (`class EllipticCurve`) -/

/-- A curve point: the source's `None` sentinel becomes `infinity`, a
coordinate tuple `(x, y)` becomes `finite x y`. -/
inductive Point where
  | infinity
  | finite (x y : Int)
  deriving DecidableEq, Repr

/-- Curve parameters `y² = x³ + ax + b (mod p)`. -/
structure EllipticCurve where
  a : Int
  b : Int
  p : Int
  deriving DecidableEq, Repr

/-- `is_on_curve(point)`: `Infinity` is on the curve; `(x, y)` must
satisfy `(y*y - (x**3 + a*x + b)) % p == 0`. -/
def is_on_curve (c : EllipticCurve) : Point → Bool
  | .infinity => true
  | .finite x y => pyMod (y * y - (x ^ 3 + c.a * x + c.b)) c.p == 0

/-- The tail shared by both slope branches of `point_add`:
`x3 = (lam*lam - x1 - x2) % p`, `y3 = (lam*(x1 - x3) - y1) % p`. -/
def point_add_final (c : EllipticCurve) (x1 y1 x2 lam : Int) : Point :=
  let x3 := pyMod (lam * lam - x1 - x2) c.p
  let y3 := pyMod (lam * (x1 - x3) - y1) c.p
  .finite x3 y3

/-- `point_add(P, Q)` from the source.  Identity absorption, then the
doubling branch (`P == Q`; `y1 == 0` gives `Infinity`, otherwise
`λ = (3x₁² + a)/(2y₁) mod p`), then the chord branch (`x1 == x2` gives
`Infinity`, otherwise `λ = (y₂-y₁)/(x₂-x₁) mod p`).  A failing
`mod_inverse` propagates as `.error`. -/
def point_add (c : EllipticCurve) (P Q : Point) : Except PyErr Point :=
  match P, Q with
  | .infinity, q => .ok q
  | pt, .infinity => .ok pt
  | .finite x1 y1, .finite x2 y2 =>
    if x1 = x2 ∧ y1 = y2 then
      if y1 = 0 then .ok .infinity
      else
        (mod_inverse (pyMod (2 * y1) c.p) c.p).map fun inv =>
          point_add_final c x1 y1 x2 (pyMod (pyMod (3 * x1 * x1 + c.a) c.p * inv) c.p)
    else
      if x1 = x2 then .ok .infinity
      else
        (mod_inverse (pyMod (x2 - x1) c.p) c.p).map fun inv =>
          point_add_final c x1 y1 x2 (pyMod (pyMod (y2 - y1) c.p * inv) c.p)

/-- Fuel-driven binary digits, least significant first; on fuel `≥ n`
this is exactly `reversed(bin(n))` of the source. -/
def natBitsAux : Nat → Nat → List Bool
  | 0, _ => []
  | _, 0 => []
  | fuel + 1, n => (n % 2 = 1) :: natBitsAux fuel (n / 2)

/-- The bit sequence of `k` processed by `scalar_multiply`, least
significant bit first (`for i, bit in enumerate(reversed(binary))`). -/
def natBits (n : Nat) : List Bool :=
  natBitsAux n n

/-- The double-and-add loop of `scalar_multiply`: on each bit, if the
bit is 1 the running point is added into the accumulator; the running
point is doubled for the next bit except after the last (most
significant) one. -/
def scalarLoop (c : EllipticCurve) : List Bool → Point → Point → Except PyErr Point
  | [], result, _ => .ok result
  | [bit], result, temp =>
    if bit then point_add c result temp else .ok result
  | bit :: rest, result, temp => do
    let result' ← if bit then point_add c result temp else .ok result
    let temp' ← point_add c temp temp
    scalarLoop c rest result' temp'

/-- `scalar_multiply(k, P)` from the source: `k = 0` or `P = Infinity`
gives `Infinity`; `k < 0` raises; otherwise double-and-add over the
binary expansion of `k`.  (The optional per-bit trace does not affect
the returned point and is not modelled.) -/
def scalar_multiply (c : EllipticCurve) (k : Int) (P : Point) : Except PyErr Point :=
  if k = 0 ∨ P = .infinity then .ok .infinity
  else if k < 0 then .error .negScalar
  else scalarLoop c (natBits k.toNat) .infinity P

/-! ### Trace model and engine result types

Each `steps.append({...})` of the source appends one record; records
are abstracted to their `'step'` index and `'title'`. -/

/-- One trace record (`'step'` index and `'title'` of the appended
dict; the remaining payload fields carry no information any claim
depends on). -/
structure TraceStep where
  step : Nat
  title : String
  deriving DecidableEq, Repr

/-- Outcome of `dsa_educational_sign`: one constructor per `return`
statement of the source, plus `pyError` for an uncaught `ValueError`
propagating out of the function (which discards the local `steps`
list). -/
inductive DsaSignResult where
  /-- `{'success': True, 'signature': {'r', 's'}, 'public_key': y, 'steps'}`. -/
  | ok (r s y : Int) (steps : List TraceStep)
  /-- `{'error': 'Invalid signature: r = 0. …', 'steps'}`. -/
  | zeroR (steps : List TraceStep)
  /-- `{'error': 'Invalid signature: s = 0. …', 'steps'}`. -/
  | zeroS (steps : List TraceStep)
  /-- an uncaught `ValueError` (no trace is returned). -/
  | pyError (e : PyErr)
  deriving DecidableEq, Repr

/-- `True` exactly on the `'success': True` outcome. -/
def DsaSignResult.isSuccess : DsaSignResult → Bool
  | .ok _ _ _ _ => true
  | _ => false

/-- The `'steps'` list returned to the caller: present on every
structured return, absent (`none`) when a `ValueError` propagates. -/
def DsaSignResult.trace : DsaSignResult → Option (List TraceStep)
  | .ok _ _ _ st => some st
  | .zeroR st => some st
  | .zeroS st => some st
  | .pyError _ => none

/-- `dsa_educational_sign(params)` from the source.  Stage order:
public key `y` (step 1), hash reduced mod `q` (step 2), `r` (no record
is appended for this stage), `k⁻¹ mod q` (step 4), `s` (step 5). -/
def dsa_educational_sign (p q g x k : Int) (message : String) : DsaSignResult :=
  let y := pow_mod g x.toNat p
  let step1 : TraceStep := ⟨1, "Compute Public Key"⟩
  let h := hash_message message
  let h_mod_q := pyMod (h : Int) q
  let step2 : TraceStep := ⟨2, "Hash Message"⟩
  let g_k_mod_p := pow_mod g k.toNat p
  let r := pyMod g_k_mod_p q
  if r = 0 then .zeroR [step1, step2]
  else
    match mod_inverse k q with
    | .error e => .pyError e
    | .ok k_inv =>
      let step4 : TraceStep := ⟨4, "Compute Modular Inverse of k"⟩
      let xr := pyMod (x * r) q
      let h_plus_xr := pyMod (h_mod_q + xr) q
      let s := pyMod (k_inv * h_plus_xr) q
      let step5 : TraceStep := ⟨5, "Compute s"⟩
      if s = 0 then .zeroS [step1, step2, step4, step5]
      else .ok r s y [step1, step2, step4, step5]

/-- Outcome of `ecdsa_educational_sign`: one constructor per `return`
statement, plus `pyError` for an uncaught exception. -/
inductive EcdsaSignResult where
  /-- `{'success': True, 'signature': {'r','s'}, 'public_key': {'Qx','Qy'}, 'steps'}`. -/
  | ok (r s Qx Qy : Int) (steps : List TraceStep)
  /-- `{'error': 'Generator point G=… is not on the curve …', 'steps': []}`. -/
  | curveError (Gx Gy : Int) (steps : List TraceStep)
  /-- `{'error': 'Invalid nonce: k × G resulted in point at infinity', 'steps'}`. -/
  | infinityError (steps : List TraceStep)
  /-- `{'error': 'Invalid signature: r = 0. …', 'steps'}`. -/
  | zeroR (steps : List TraceStep)
  /-- `{'error': 'Invalid signature: s = 0. …', 'steps'}`. -/
  | zeroS (steps : List TraceStep)
  /-- an uncaught exception (no trace is returned). -/
  | pyError (e : PyErr)
  deriving DecidableEq, Repr

/-- `True` exactly on the `'success': True` outcome. -/
def EcdsaSignResult.isSuccess : EcdsaSignResult → Bool
  | .ok _ _ _ _ _ => true
  | _ => false

/-- `ecdsa_educational_sign(params)` from the source.  Stage order:
on-curve check for `G` (`'steps': []` on failure), curve definition
(step 0), `Q = d×G` (step 1), hash reduced mod `n` (step 2), `kG`
(infinity check, then step 3), `r = x₁ mod n` (no record appended),
`k⁻¹ mod n` (step 5), `s` (step 6). -/
def ecdsa_educational_sign (a b p Gx Gy n d k : Int) (message : String) :
    EcdsaSignResult :=
  let curve : EllipticCurve := ⟨a, b, p⟩
  let G : Point := .finite Gx Gy
  if ¬ is_on_curve curve G then .curveError Gx Gy []
  else
    let step0 : TraceStep := ⟨0, "Curve Definition"⟩
    match scalar_multiply curve d G with
    | .error e => .pyError e
    | .ok Q =>
      let step1 : TraceStep := ⟨1, "Compute Public Key"⟩
      let h := hash_message message
      let e := pyMod (h : Int) n
      let step2 : TraceStep := ⟨2, "Hash Message"⟩
      match scalar_multiply curve k G with
      | .error err => .pyError err
      | .ok .infinity => .infinityError [step0, step1, step2]
      | .ok (.finite x1 _) =>
        let step3 : TraceStep := ⟨3, "Compute k × G"⟩
        let r := pyMod x1 n
        if r = 0 then .zeroR [step0, step1, step2, step3]
        else
          match mod_inverse k n with
          | .error err => .pyError err
          | .ok k_inv =>
            let step5 : TraceStep := ⟨5, "Compute Modular Inverse of k"⟩
            let dr := pyMod (d * r) n
            let e_plus_dr := pyMod (e + dr) n
            let s := pyMod (k_inv * e_plus_dr) n
            let step6 : TraceStep := ⟨6, "Compute s"⟩
            if s = 0 then .zeroS [step0, step1, step2, step3, step5, step6]
            else
              match Q with
              | .finite Qx Qy => .ok r s Qx Qy [step0, step1, step2, step3, step5, step6]
              | .infinity => .pyError .noneSubscript

/-- Outcome of `ecdsa_educational_verify`: one constructor per `return`
statement, plus `pyError` for an uncaught exception. -/
inductive EcdsaVerifyResult where
  /-- `{'success': True, 'valid': …, 'verification_value': v, 'steps'}`. -/
  | ok (valid : Bool) (v vx vy : Int) (steps : List TraceStep)
  /-- `{'error': 'Generator point G=… is not on the curve', 'steps': []}`. -/
  | curveErrorG (Gx Gy : Int) (steps : List TraceStep)
  /-- `{'error': 'Public key point Q=… is not on the curve', 'steps': []}`. -/
  | curveErrorQ (Qx Qy : Int) (steps : List TraceStep)
  /-- `{'error': 'u₁×G resulted in point at infinity', 'steps'}`. -/
  | infinityU1 (steps : List TraceStep)
  /-- `{'error': 'u₂×Q resulted in point at infinity', 'steps'}`. -/
  | infinityU2 (steps : List TraceStep)
  /-- `{'error': 'u₁×G + u₂×Q resulted in point at infinity', 'steps'}`. -/
  | infinitySum (steps : List TraceStep)
  /-- an uncaught exception (no trace is returned). -/
  | pyError (e : PyErr)
  deriving DecidableEq, Repr

/-- `ecdsa_educational_verify(params)` from the source. -/
def ecdsa_educational_verify (a b p Gx Gy n Qx Qy r s : Int) (message : String) :
    EcdsaVerifyResult :=
  let curve : EllipticCurve := ⟨a, b, p⟩
  let G : Point := .finite Gx Gy
  let Q : Point := .finite Qx Qy
  if ¬ is_on_curve curve G then .curveErrorG Gx Gy []
  else if ¬ is_on_curve curve Q then .curveErrorQ Qx Qy []
  else
    let step0 : TraceStep := ⟨0, "Setup"⟩
    let h := hash_message message
    let e := pyMod (h : Int) n
    let step1 : TraceStep := ⟨1, "Hash Message"⟩
    match mod_inverse s n with
    | .error err => .pyError err
    | .ok w =>
      let step2 : TraceStep := ⟨2, "Compute w = s^(-1) mod n"⟩
      let u1 := pyMod (e * w) n
      let step3 : TraceStep := ⟨3, "Compute u₁"⟩
      let u2 := pyMod (r * w) n
      let step4 : TraceStep := ⟨4, "Compute u₂"⟩
      match scalar_multiply curve u1 G with
      | .error err => .pyError err
      | .ok .infinity => .infinityU1 [step0, step1, step2, step3, step4]
      | .ok (.finite ux uy) =>
        let step5 : TraceStep := ⟨5, "Compute u₁×G"⟩
        match scalar_multiply curve u2 Q with
        | .error err => .pyError err
        | .ok .infinity => .infinityU2 [step0, step1, step2, step3, step4, step5]
        | .ok (.finite wx wy) =>
          let step6 : TraceStep := ⟨6, "Compute u₂×Q"⟩
          match point_add curve (.finite ux uy) (.finite wx wy) with
          | .error err => .pyError err
          | .ok .infinity =>
            .infinitySum [step0, step1, step2, step3, step4, step5, step6]
          | .ok (.finite vx vy) =>
            let step7 : TraceStep := ⟨7, "Compute Verification Point"⟩
            let v := pyMod vx n
            let valid := v = r
            let step8 : TraceStep := ⟨8, "Verify Signature"⟩
            .ok valid v vx vy
              [step0, step1, step2, step3, step4, step5, step6, step7, step8]


/-- Coordinates of a finite point normalized into `[0, p)` (the data
model's invariant "all modular results are normalized into
`[0, modulus)`"); `Infinity` has no coordinates. -/
def InRange (c : EllipticCurve) : Point → Prop
  | .infinity => True
  | .finite x y => 0 ≤ x ∧ x < c.p ∧ 0 ≤ y ∧ y < c.p

instance (c : EllipticCurve) (P : Point) : Decidable (InRange c P) := by
  cases P <;> unfold InRange <;> infer_instance

/-- A point that is on the curve (source predicate `is_on_curve`) with
normalized coordinates: `Infinity`, or a finite point with coordinates
in `[0, p)` satisfying the curve equation. -/
def OnCurve (c : EllipticCurve) (P : Point) : Prop :=
  is_on_curve c P = true ∧ InRange c P

instance (c : EllipticCurve) (P : Point) : Decidable (OnCurve c P) := by
  unfold OnCurve
  infer_instance

/-- The short Weierstrass curve over `ZMod p` with the embedded
curve's coefficients (`a₁ = a₂ = a₃ = 0`, `a₄ = a`, `a₆ = b`), used to
state the group-law transfer. -/
def Wcurve (a b : Int) (pn : Nat) : WeierstrassCurve.Affine (ZMod pn) :=
  ⟨0, 0, 0, (a : ZMod pn), (b : ZMod pn)⟩

/-! ### Arithmetic lemmas -/

/-- Floor mod shrinks absolute value (termination measure of the
source's recursion). -/
theorem natAbs_fmod_lt (b : Int) {a : Int} (ha : a ≠ 0) :
    (Int.fmod b a).natAbs < a.natAbs := by
  rcases a with n | n
  · rw [show Int.ofNat n = (n : Int) from rfl] at ha ⊢
    have h1 : Int.fmod b (n : Int) = b % (n : Int) := Int.fmod_eq_emod b (by omega)
    have h2 : 0 ≤ b % (n : Int) := Int.emod_nonneg b ha
    have h3 : b % (n : Int) < (n : Int) := Int.emod_lt_of_pos b (by omega)
    rw [h1]; omega
  · rcases b with m | m
    · rcases m with _ | m
      · rw [show Int.ofNat 0 = 0 from rfl, Int.zero_fmod]
        simp [Int.natAbs_negSucc]
      · show (Int.subNatNat (m % (n+1)) n).natAbs < (Int.negSucc n).natAbs
        rw [Int.subNatNat_eq_coe, Int.natAbs_negSucc]
        have hmod : m % (n+1) < n + 1 := Nat.mod_lt _ (by omega)
        omega
    · show ((-(Int.ofNat ((m+1) % (n+1)))).natAbs) < (Int.negSucc n).natAbs
      rw [Int.natAbs_neg, Int.natAbs_negSucc]
      have hmod : (m+1) % (n+1) < n + 1 := Nat.mod_lt _ (by omega)
      simpa using hmod

theorem pyMod_nonneg (a : Int) {m : Int} (hm : 0 < m) : 0 ≤ pyMod a m :=
  Int.fmod_nonneg' a hm

theorem pyMod_lt (a : Int) {m : Int} (hm : 0 < m) : pyMod a m < m :=
  Int.fmod_lt_of_pos a hm

theorem pyMod_eq_emod (a : Int) {m : Int} (hm : 0 ≤ m) : pyMod a m = a % m :=
  Int.fmod_eq_emod a hm

/-- Any two sufficient fuels compute the same `egcdAux` value. -/
theorem egcdAux_fuel : ∀ (f1 f2 : Nat) (a b : Int), a.natAbs < f1 → a.natAbs < f2 →
    egcdAux f1 a b = egcdAux f2 a b := by
  intro f1
  induction f1 with
  | zero => intro f2 a b h1 _; omega
  | succ f ih =>
    intro f2 a b h1 h2
    cases f2 with
    | zero => omega
    | succ f2' =>
      by_cases ha : a = 0
      · simp [egcdAux, ha]
      · have hlt : (pyMod b a).natAbs < a.natAbs := natAbs_fmod_lt b ha
        simp only [egcdAux, if_neg ha]
        rw [ih f2' (pyMod b a) a (by omega) (by omega)]

/-- The source's base case: `extended_gcd(0, b) = (b, 0, 1)`. -/
theorem extended_gcd_zero (b : Int) : extended_gcd 0 b = (b, 0, 1) := rfl

/-- The source's recurrence, recovered from the fuel-based embedding:
for `a ≠ 0`, `extended_gcd(a, b)` is `(g, y1 - (b // a) * x1, x1)`
where `(g, x1, y1) = extended_gcd(b % a, a)`. -/
theorem egcdAux_step (f : Nat) (a b : Int) (ha : a ≠ 0) :
    egcdAux (f + 1) a b =
      ((egcdAux f (pyMod b a) a).1,
       (egcdAux f (pyMod b a) a).2.2 - pyFloorDiv b a * (egcdAux f (pyMod b a) a).2.1,
       (egcdAux f (pyMod b a) a).2.1) := by
  simp only [egcdAux, if_neg ha]

/-- The source's recurrence, recovered from the fuel-based embedding:
for `a ≠ 0`, `extended_gcd(a, b)` is `(g, y1 - (b // a) * x1, x1)`
where `(g, x1, y1) = extended_gcd(b % a, a)`. -/
theorem extended_gcd_rec (a b : Int) (ha : a ≠ 0) :
    extended_gcd a b =
      ((extended_gcd (pyMod b a) a).1,
       (extended_gcd (pyMod b a) a).2.2 -
         pyFloorDiv b a * (extended_gcd (pyMod b a) a).2.1,
       (extended_gcd (pyMod b a) a).2.1) := by
  have hlt : (pyMod b a).natAbs < a.natAbs := natAbs_fmod_lt b ha
  obtain ⟨n, hn⟩ : ∃ n, a.natAbs = n + 1 := ⟨a.natAbs - 1, by omega⟩
  show egcdAux (a.natAbs + 1) a b = _
  rw [hn, egcdAux_step (n + 1) a b ha,
      egcdAux_fuel (n + 1) ((pyMod b a).natAbs + 1) (pyMod b a) a (by omega) (by omega)]
  rfl

theorem bezout_aux : ∀ (f : Nat) (a b : Int), a.natAbs < f →
    a * (egcdAux f a b).2.1 + b * (egcdAux f a b).2.2 = (egcdAux f a b).1 := by
  intro f
  induction f with
  | zero => intro a b h; omega
  | succ f ih =>
    intro a b h
    by_cases ha : a = 0
    · simp [egcdAux, ha]
    · have hlt : (pyMod b a).natAbs < a.natAbs := natAbs_fmod_lt b ha
      have IH := ih (pyMod b a) a (by omega)
      simp only [egcdAux, if_neg ha]
      have key : pyMod b a = b - a * pyFloorDiv b a := Int.fmod_def b a
      linear_combination IH - (egcdAux f (pyMod b a) a).2.1 * key

/-- Bezout identity of `extended_gcd`, for all integers. -/
theorem extended_gcd_bezout (a b : Int) :
    a * (extended_gcd a b).2.1 + b * (extended_gcd a b).2.2 = (extended_gcd a b).1 :=
  bezout_aux (a.natAbs + 1) a b (by omega)

theorem gcd_aux : ∀ (f : Nat) (a b : Int), a.natAbs < f → 0 ≤ a → 0 ≤ b →
    (egcdAux f a b).1 = (Int.gcd a b : Int) := by
  intro f
  induction f with
  | zero => intro a b h _ _; omega
  | succ f ih =>
    intro a b h ha0 hb0
    by_cases ha : a = 0
    · subst ha
      simp [egcdAux, Int.gcd_zero_left, Int.natAbs_of_nonneg hb0]
    · have hapos : 0 < a := lt_of_le_of_ne ha0 (Ne.symm ha)
      have hlt : (pyMod b a).natAbs < a.natAbs := natAbs_fmod_lt b ha
      have IH := ih (pyMod b a) a (by omega) (pyMod_nonneg b hapos) ha0
      simp only [egcdAux, if_neg ha]
      rw [IH]
      congr 1
      -- `Int.gcd (b % a) a = Int.gcd a b` for `0 < a`, `0 ≤ b`
      obtain ⟨an, rfl⟩ : ∃ an : Nat, a = (an : Int) := ⟨a.toNat, (Int.toNat_of_nonneg ha0).symm⟩
      obtain ⟨bn, rfl⟩ : ∃ bn : Nat, b = (bn : Int) := ⟨b.toNat, (Int.toNat_of_nonneg hb0).symm⟩
      rw [pyMod_eq_emod _ ha0, ← Int.natCast_mod, Int.gcd_natCast_natCast,
        Int.gcd_natCast_natCast, ← Nat.gcd_rec]

/-- For nonnegative operands the first component of `extended_gcd` is
the (nonnegative) gcd. -/
theorem extended_gcd_gcd (a b : Int) (ha : 0 ≤ a) (hb : 0 ≤ b) :
    (extended_gcd a b).1 = (Int.gcd a b : Int) :=
  gcd_aux (a.natAbs + 1) a b (by omega) ha hb

/-- A successful `mod_inverse` returns a value in `[0, m)` that is a
modular inverse of `a`. -/
theorem mod_inverse_ok {a m x : Int} (hm : 1 < m) (h : mod_inverse a m = .ok x) :
    0 ≤ x ∧ x < m ∧ pyMod (a * x) m = 1 := by
  have hm0 : (0:Int) < m := by omega
  have hm0' : (0:Int) ≤ m := by omega
  by_cases hg : (extended_gcd (pyMod a m) m).1 = 1
  · have hx : x = pyMod (pyMod (extended_gcd (pyMod a m) m).2.1 m + m) m := by
      simp only [mod_inverse, hg] at h
      simp at h
      exact h.symm
    have hb := extended_gcd_bezout (pyMod a m) m
    rw [hg] at hb
    refine ⟨by rw [hx]; exact pyMod_nonneg _ hm0, by rw [hx]; exact pyMod_lt _ hm0, ?_⟩
    have e2 : x % m = (extended_gcd (pyMod a m) m).2.1 % m := by
      have h4 := Int.add_mul_emod_self_left ((extended_gcd (pyMod a m) m).2.1 % m) m 1
      rw [mul_one] at h4
      rw [Int.emod_emod_of_dvd _ dvd_rfl] at h4
      rw [hx, pyMod_eq_emod _ hm0', pyMod_eq_emod _ hm0', h4,
          Int.emod_emod_of_dvd _ dvd_rfl]
    have e3 : a % m = pyMod a m := (pyMod_eq_emod a hm0').symm
    have e4 : pyMod a m % m = pyMod a m := by
      rw [← e3, Int.emod_emod_of_dvd _ dvd_rfl]
    calc pyMod (a * x) m = (a * x) % m := pyMod_eq_emod _ hm0'
      _ = (a % m) * (x % m) % m := Int.mul_emod a x m
      _ = pyMod a m * ((extended_gcd (pyMod a m) m).2.1 % m) % m := by
          rw [e3, e2]
      _ = (pyMod a m * (extended_gcd (pyMod a m) m).2.1) % m := by
          rw [Int.mul_emod (pyMod a m) ((extended_gcd (pyMod a m) m).2.1 % m) m,
              Int.emod_emod_of_dvd _ dvd_rfl, ← Int.mul_emod]
      _ = (1 + m * (-(extended_gcd (pyMod a m) m).2.2)) % m := by
          rw [show pyMod a m * (extended_gcd (pyMod a m) m).2.1 =
            1 + m * (-(extended_gcd (pyMod a m) m).2.2) by linarith [hb]]
      _ = 1 % m := Int.add_mul_emod_self_left 1 m _
      _ = 1 := Int.emod_eq_of_lt (by omega) (by omega)
  · simp [mod_inverse, hg] at h

/-- `mod_inverse` succeeds when `gcd(a mod m, m) = 1`, returning the
normalized Bezout coefficient. -/
theorem mod_inverse_eq_ok {a m : Int} (hm : 0 < m) (hg : Int.gcd (pyMod a m) m = 1) :
    mod_inverse a m =
      .ok (pyMod (pyMod (extended_gcd (pyMod a m) m).2.1 m + m) m) := by
  have h1 : (extended_gcd (pyMod a m) m).1 = ((Int.gcd (pyMod a m) m : Nat) : Int) :=
    extended_gcd_gcd _ _ (pyMod_nonneg _ hm) (le_of_lt hm)
  simp [mod_inverse, h1, hg]

/-- `mod_inverse` fails exactly with `NoInverseError` when
`gcd(a mod m, m) ≠ 1`. -/
theorem mod_inverse_eq_error {a m : Int} (hm : 0 < m)
    (hg : Int.gcd (pyMod a m) m ≠ 1) :
    mod_inverse a m = .error (.noInverse a m) := by
  have h1 : (extended_gcd (pyMod a m) m).1 = ((Int.gcd (pyMod a m) m : Nat) : Int) :=
    extended_gcd_gcd _ _ (pyMod_nonneg _ hm) (le_of_lt hm)
  have h2 : ((Int.gcd (pyMod a m) m : Nat) : Int) ≠ 1 := by exact_mod_cast hg
  simp [mod_inverse, h1, h2]

/-- Inverses modulo `m` are unique in `[0, m)`. -/
theorem mod_inverse_unique {a m x z : Int} (hm : 1 < m)
    (hx0 : 0 ≤ x) (hx1 : x < m) (hxi : pyMod (a * x) m = 1)
    (hz0 : 0 ≤ z) (hz1 : z < m) (hzi : pyMod (a * z) m = 1) : x = z := by
  have hm0' : (0:Int) ≤ m := by omega
  rw [pyMod_eq_emod _ hm0'] at hxi hzi
  have e1 : x = (x * ((a * z) % m)) % m := by
    rw [hzi, mul_one, Int.emod_eq_of_lt hx0 hx1]
  have e2 : (x * ((a * z) % m)) % m = (x * (a * z)) % m := by
    rw [Int.mul_emod x ((a * z) % m) m, Int.emod_emod_of_dvd _ dvd_rfl, ← Int.mul_emod]
  have e3 : (x * (a * z)) % m = (z * (a * x)) % m := by
    congr 1
    ring
  have e4 : (z * ((a * x) % m)) % m = (z * (a * x)) % m := by
    rw [Int.mul_emod z ((a * x) % m) m, Int.emod_emod_of_dvd _ dvd_rfl, ← Int.mul_emod]
  have e5 : (z * ((a * x) % m)) % m = z := by
    rw [hxi, mul_one, Int.emod_eq_of_lt hz0 hz1]
  rw [e1, e2, e3, ← e4, e5]

/-! ### Bridge to `ZMod` -/

/-- Casting `pyMod a n` into `ZMod n` forgets the reduction. -/
theorem intCast_pyMod (a : Int) (n : Nat) :
    ((pyMod a (n : Int) : Int) : ZMod n) = (a : ZMod n) := by
  rw [pyMod_eq_emod a (by exact_mod_cast Nat.zero_le n)]
  rw [ZMod.intCast_eq_intCast_iff']
  exact Int.emod_emod_of_dvd a dvd_rfl

/-- Integers in `[0, n)` with equal images in `ZMod n` are equal. -/
theorem intCast_inj_of_lt {n : Nat} {u v : Int} (hu0 : 0 ≤ u) (hu1 : u < (n : Int))
    (hv0 : 0 ≤ v) (hv1 : v < (n : Int)) (h : (u : ZMod n) = (v : ZMod n)) : u = v := by
  rw [ZMod.intCast_eq_intCast_iff'] at h
  rwa [Int.emod_eq_of_lt hu0 hu1, Int.emod_eq_of_lt hv0 hv1] at h

/-- Vanishing in `ZMod n` is vanishing of the Python remainder. -/
theorem intCast_eq_zero_iff_pyMod {n : Nat} (a : Int) :
    (a : ZMod n) = 0 ↔ pyMod a (n : Int) = 0 := by
  rw [pyMod_eq_emod a (by exact_mod_cast Nat.zero_le n)]
  constructor
  · intro h
    exact Int.emod_eq_zero_of_dvd ((ZMod.intCast_zmod_eq_zero_iff_dvd a n).mp h)
  · intro h
    exact (ZMod.intCast_zmod_eq_zero_iff_dvd a n).mpr (Int.dvd_of_emod_eq_zero h)

/-- For a prime modulus, `mod_inverse` succeeds on any input in
`(0, p)` and its result inverts the input in `ZMod p`. -/
theorem mod_inverse_prime {pn : Nat} (hp : pn.Prime) {d : Int}
    (h0 : 0 < d) (h1 : d < (pn : Int)) :
    ∃ v, mod_inverse d (pn : Int) = .ok v ∧ 0 ≤ v ∧ v < (pn : Int) ∧
      (d : ZMod pn) * (v : ZMod pn) = 1 := by
  have hm1 : (1 : Int) < (pn : Int) := by exact_mod_cast hp.one_lt
  have hpn0 : (0 : Int) < (pn : Int) := by omega
  have hd : pyMod d (pn : Int) = d := by
    rw [pyMod_eq_emod d (le_of_lt hpn0)]
    exact Int.emod_eq_of_lt (le_of_lt h0) h1
  obtain ⟨dn, rfl⟩ : ∃ dn : Nat, d = (dn : Int) :=
    ⟨d.toNat, (Int.toNat_of_nonneg (le_of_lt h0)).symm⟩
  have hgcd : Int.gcd (pyMod (dn : Int) (pn : Int)) (pn : Int) = 1 := by
    rw [hd, Int.gcd_natCast_natCast]
    refine Nat.Coprime.symm ((Nat.Prime.coprime_iff_not_dvd hp).mpr ?_)
    intro hdvd
    have hd0 : 0 < dn := by exact_mod_cast h0
    have := Nat.le_of_dvd hd0 hdvd
    have hlt : dn < pn := by exact_mod_cast h1
    omega
  have hok := mod_inverse_eq_ok hpn0 hgcd
  obtain ⟨hv0, hv1, hvi⟩ := mod_inverse_ok hm1 hok
  refine ⟨_, hok, hv0, hv1, ?_⟩
  have hcast := congrArg (fun t : Int => (t : ZMod pn)) hvi
  simp only at hcast
  rw [intCast_pyMod] at hcast
  push_cast at hcast
  exact_mod_cast hcast

/-- The doubling denominator `(2*y1) % p` is positive when `p` is an
odd prime and `0 < y1 < p`. -/
theorem double_denom_pos {pn : Nat} (hp : pn.Prime) (hodd : pn ≠ 2) {y1 : Int}
    (h0 : 0 < y1) (h1 : y1 < (pn : Int)) :
    0 < pyMod (2 * y1) (pn : Int) := by
  have hpn0 : (0 : Int) < (pn : Int) := by exact_mod_cast hp.pos
  rcases lt_or_eq_of_le (pyMod_nonneg (2 * y1) hpn0) with h | h
  · exact h
  · exfalso
    have hdvd : (pn : Int) ∣ 2 * y1 := by
      rw [pyMod_eq_emod _ (le_of_lt hpn0)] at h
      exact Int.dvd_of_emod_eq_zero h.symm
    have hprime : Prime ((pn : Nat) : Int) := Nat.prime_iff_prime_int.mp hp
    rcases hprime.2.2 2 y1 hdvd with h2 | h2
    · have hle : (pn : Int) ≤ 2 := Int.le_of_dvd (by norm_num) h2
      have h2' : (2 : Int) ≤ (pn : Int) := by exact_mod_cast hp.two_le
      have : pn = 2 := by omega
      exact hodd this
    · have := Int.le_of_dvd h0 h2
      omega

/-- The chord denominator `(x2-x1) % p` is positive when `x1 ≠ x2`
with both coordinates in `[0, p)`. -/
theorem chord_denom_pos {pn : Nat} (hpn0 : 0 < pn) {x1 x2 : Int} (hne : x1 ≠ x2)
    (hx10 : 0 ≤ x1) (hx11 : x1 < (pn : Int)) (hx20 : 0 ≤ x2) (hx21 : x2 < (pn : Int)) :
    0 < pyMod (x2 - x1) (pn : Int) := by
  have h1 : (0 : Int) < (pn : Int) := by exact_mod_cast hpn0
  rcases lt_or_eq_of_le (pyMod_nonneg (x2 - x1) h1) with h | h
  · exact h
  · exfalso
    have hdvd : (pn : Int) ∣ (x2 - x1) := by
      rw [pyMod_eq_emod _ (le_of_lt h1)] at h
      exact Int.dvd_of_emod_eq_zero h.symm
    have := Int.eq_zero_of_abs_lt_dvd hdvd (by rw [abs_lt]; omega)
    omega

theorem pyMod_idem (a : Int) {m : Int} (hm : 0 < m) :
    pyMod (pyMod a m) m = pyMod a m :=
  Int.fmod_eq_of_lt (pyMod_nonneg a hm) (pyMod_lt a hm)

/-! ### SHA-256 test vectors (FIPS 180-4 / RFC 6234), validating the
constant tables and the digest pipeline -/

/-- FIPS 180-4 test vector: the SHA-256 digest of `"abc"` (the integer
value of `ba7816bf8f01cfea414140de5dae2223b00361a396177a9cb410ff61f20015ad`). -/
theorem sha256_vector_abc :
    hash_message "abc" =
      84342368487090800366523834928142263660104883695016514377462985829716817089965 := by
  decide

/-- RFC 6234 test vector: the SHA-256 digest of the empty string (the
integer value of
`e3b0c44298fc1c149afbf4c8996fb92427ae41e4649b934ca495991b7852b855`). -/
theorem sha256_vector_empty :
    hash_message "" =
      102987336249554097029535212322581322789799900648198034993379397001115665086549 := by
  decide

/-! ### Claim C10 -/

/-- C10 (counterexample): `extended_gcd(0, -2)` returns `g = -2`,
which is not `gcd(0, -2) = 2`, so the claim's `g = gcd(a, b)` fails for
all integers. -/
theorem c10_counterexample :
    (extended_gcd 0 (-2)).1 ≠ (Int.gcd 0 (-2) : Int) := by decide

/-- C10 (amended): `extended_gcd(a, b)` returns `(g, x, y)` with
`a·x + b·y = g` for all integers, `g = gcd(a, b)` whenever `a` and `b`
are nonnegative, and the base case `a = 0` returns `(b, 0, 1)`. -/
theorem c10_extended_gcd (a b : Int) :
    a * (extended_gcd a b).2.1 + b * (extended_gcd a b).2.2 = (extended_gcd a b).1 ∧
    (0 ≤ a → 0 ≤ b → (extended_gcd a b).1 = (Int.gcd a b : Int)) ∧
    extended_gcd 0 b = (b, 0, 1) :=
  ⟨extended_gcd_bezout a b, fun ha hb => extended_gcd_gcd a b ha hb,
   extended_gcd_zero b⟩

/-- C10 (witness): the amended claim at `(12, -18)`, `(8, 20)` and
`(0, 7)`. -/
theorem c10_extended_gcd_witness :
    12 * (extended_gcd 12 (-18)).2.1 + -18 * (extended_gcd 12 (-18)).2.2 =
      (extended_gcd 12 (-18)).1 ∧
    (extended_gcd 8 20).1 = (Int.gcd 8 20 : Int) ∧
    extended_gcd 0 7 = (7, 0, 1) :=
  ⟨(c10_extended_gcd 12 (-18)).1,
   (c10_extended_gcd 8 20).2.1 (by decide) (by decide),
   (c10_extended_gcd 0 7).2.2⟩

/-! ### Claim C4 -/

/-- C4: for `m > 1`, `mod_inverse(a, m)` normalizes `a mod m` first
(its outcome value agrees with `mod_inverse(a mod m, m)`); when
`gcd(a mod m, m) = 1` it returns the unique `x ∈ [0, m)` with
`(a·x) mod m = 1`; when `gcd(a mod m, m) ≠ 1` it fails with the
`NoInverseError`; in particular `mod_inverse(4, 8)` fails. -/
theorem c4_mod_inverse (a m : Int) (hm : 1 < m) :
    (mod_inverse a m).toOption = (mod_inverse (pyMod a m) m).toOption ∧
    (Int.gcd (pyMod a m) m = 1 →
      ∃ x, mod_inverse a m = .ok x ∧ 0 ≤ x ∧ x < m ∧ pyMod (a * x) m = 1 ∧
        ∀ z, 0 ≤ z → z < m → pyMod (a * z) m = 1 → z = x) ∧
    (Int.gcd (pyMod a m) m ≠ 1 → mod_inverse a m = .error (.noInverse a m)) ∧
    mod_inverse 4 8 = .error (.noInverse 4 8) := by
  have hm0 : (0 : Int) < m := by omega
  refine ⟨?_, ?_, fun hg => mod_inverse_eq_error hm0 hg, by decide⟩
  · simp only [mod_inverse, pyMod_idem a hm0]
    by_cases hg : (extended_gcd (pyMod a m) m).1 = 1 <;>
      simp [hg, Except.toOption]
  · intro hg
    have hok := mod_inverse_eq_ok hm0 hg
    obtain ⟨h0, h1, h2⟩ := mod_inverse_ok hm hok
    exact ⟨_, hok, h0, h1, h2,
      fun z hz0 hz1 hzi => mod_inverse_unique hm hz0 hz1 hzi h0 h1 h2⟩

/-- C4 (witness): the claim at `a = 3`, `m = 7`. -/
theorem c4_mod_inverse_witness :
    ∃ x, mod_inverse 3 7 = .ok x ∧ 0 ≤ x ∧ x < 7 ∧ pyMod (3 * x) 7 = 1 ∧
      ∀ z, 0 ≤ z → z < 7 → pyMod (3 * z) 7 = 1 → z = x :=
  (c4_mod_inverse 3 7 (by decide)).2.1 (by decide)

/-! ### Claim C8 -/

/-- C8: in DSA sign, if `r = (g^k mod p) mod q` is 0 the function
returns the `r = 0` zero-signature-component error with the trace
accumulated so far (steps 1 and 2); if the pipeline reaches `s` and
`s = k⁻¹(h + x·r) mod q` is 0 it returns the `s = 0` error with the
trace accumulated so far (steps 1, 2, 4, 5).  No signature is produced
in either case. -/
theorem c8_dsa_zero_components (p q g x k : Int) (message : String) :
    (pyMod (pow_mod g k.toNat p) q = 0 →
      dsa_educational_sign p q g x k message =
        .zeroR [⟨1, "Compute Public Key"⟩, ⟨2, "Hash Message"⟩]) ∧
    (∀ kinv, pyMod (pow_mod g k.toNat p) q ≠ 0 →
      mod_inverse k q = .ok kinv →
      pyMod (kinv * pyMod (pyMod (hash_message message : Int) q +
        pyMod (x * pyMod (pow_mod g k.toNat p) q) q) q) q = 0 →
      dsa_educational_sign p q g x k message =
        .zeroS [⟨1, "Compute Public Key"⟩, ⟨2, "Hash Message"⟩,
                ⟨4, "Compute Modular Inverse of k"⟩, ⟨5, "Compute s"⟩]) := by
  constructor
  · intro hr
    simp [dsa_educational_sign, hr]
  · intro kinv hr hk hs
    simp [dsa_educational_sign, hr, hk, hs]

/-- C8 (witness): `r = 0` at `(p,q,g,x,k) = (23,11,11,1,1)` and
`s = 0` at `(23,11,4,6,7)`, message `"hi"`. -/
theorem c8_dsa_zero_components_witness :
    dsa_educational_sign 23 11 11 1 1 "hi" =
      .zeroR [⟨1, "Compute Public Key"⟩, ⟨2, "Hash Message"⟩] ∧
    dsa_educational_sign 23 11 4 6 7 "hi" =
      .zeroS [⟨1, "Compute Public Key"⟩, ⟨2, "Hash Message"⟩,
              ⟨4, "Compute Modular Inverse of k"⟩, ⟨5, "Compute s"⟩] :=
  ⟨(c8_dsa_zero_components 23 11 11 1 1 "hi").1 (by decide),
   (c8_dsa_zero_components 23 11 4 6 7 "hi").2 8 (by decide) (by decide) (by decide)⟩

/-! ### Claim C5 -/

/-- C5 (counterexample): the DSA sign call
`(p,q,g,x,k) = (23,8,2,3,2)` reaches stage 4 with a nonce that is not
invertible mod `q`; the engine does not return a structured
NoInverseError result carrying the partial trace — the `ValueError`
propagates and the accumulated trace is discarded (`trace = none`). -/
theorem c5_counterexample :
    dsa_educational_sign 23 8 2 3 2 "hi" = .pyError (.noInverse 2 8) ∧
    (dsa_educational_sign 23 8 2 3 2 "hi").trace = none := by
  constructor <;> decide

/-- C5 (amended): DSA sign with a nonce `k` not invertible modulo `q`
(and `r ≠ 0`, so that stage 4 is reached) fails with the NoInverseError
`ValueError`, and the trace accumulated before the failure is
discarded rather than returned. -/
theorem c5_dsa_noinverse_discards_trace (p q g x k : Int) (message : String)
    (hq : 0 < q)
    (hr : pyMod (pow_mod g k.toNat p) q ≠ 0)
    (hk : Int.gcd (pyMod k q) q ≠ 1) :
    dsa_educational_sign p q g x k message = .pyError (.noInverse k q) ∧
    (dsa_educational_sign p q g x k message).trace = none := by
  have herr := mod_inverse_eq_error hq hk
  have h1 : dsa_educational_sign p q g x k message = .pyError (.noInverse k q) := by
    simp [dsa_educational_sign, hr, herr]
  exact ⟨h1, by rw [h1]; rfl⟩

/-- C5 (witness): the amended claim at `(23, 8, 2, 3, 2)`. -/
theorem c5_dsa_noinverse_discards_trace_witness :
    dsa_educational_sign 23 8 2 3 2 "hi" = .pyError (.noInverse 2 8) ∧
    (dsa_educational_sign 23 8 2 3 2 "hi").trace = none :=
  c5_dsa_noinverse_discards_trace 23 8 2 3 2 "hi" (by decide) (by decide) (by decide)

/-! ### Claim C7 -/

/-- C7 (counterexample): a successful DSA sign call whose returned
trace has four records, with step indices 1, 2, 4, 5 — not five
records for stages 1 through 5: the `r` stage appends no record. -/
theorem c7_counterexample :
    dsa_educational_sign 23 11 4 3 7 "hi" =
      .ok 8 6 18 [⟨1, "Compute Public Key"⟩, ⟨2, "Hash Message"⟩,
                  ⟨4, "Compute Modular Inverse of k"⟩, ⟨5, "Compute s"⟩] := by
  decide

/-- C7 (amended): every successful DSA sign call runs the five
computational stages but returns a trace of exactly four records, one
each for stages 1, 2, 4 and 5 — the `r` stage (stage 3) appends no
trace record. -/
theorem c7_dsa_success_trace (p q g x k : Int) (message : String)
    (r s y : Int) (st : List TraceStep)
    (h : dsa_educational_sign p q g x k message = .ok r s y st) :
    st.map TraceStep.step = [1, 2, 4, 5] := by
  simp only [dsa_educational_sign] at h
  split at h
  · cases h
  · split at h
    · cases h
    · split at h
      · cases h
      · injection h with h1 h2 h3 h4
        subst h4
        rfl

/-- C7 (witness): the amended claim at the successful call
`(23, 11, 4, 3, 7, "hi")`. -/
theorem c7_dsa_success_trace_witness :
    List.map TraceStep.step
      [⟨1, "Compute Public Key"⟩, ⟨2, "Hash Message"⟩,
       ⟨4, "Compute Modular Inverse of k"⟩, ⟨5, "Compute s"⟩] = [1, 2, 4, 5] :=
  c7_dsa_success_trace 23 11 4 3 7 "hi" 8 6 18 _ (by decide)

/-! ### Claim C1 -/

/-- C1 (counterexample): with `a=2, b=3, p=97, G=(3,6), n=5, d=3, k=2`,
message `"Test"`, ECDSA educational sign does not succeed. -/
theorem c1_counterexample :
    (ecdsa_educational_sign 2 3 97 3 6 5 3 2 "Test").isSuccess = false := by
  decide

/-- C1 (amended): on those inputs `kG = 2·(3,6) = (80,10)` and
`r = 80 mod 5 = 0`, so sign returns the `r = 0`
ZeroSignatureComponentError together with the trace accumulated so far
(steps 0–3); no signature is produced and no round trip occurs. -/
theorem c1_ecdsa_example :
    ecdsa_educational_sign 2 3 97 3 6 5 3 2 "Test" =
      .zeroR [⟨0, "Curve Definition"⟩, ⟨1, "Compute Public Key"⟩,
              ⟨2, "Hash Message"⟩, ⟨3, "Compute k × G"⟩] := by
  decide

/-! ### Claim C9 -/

/-- C9: supplying a generator `G` (in ECDSA sign or verify) or a
public point `Q` (in verify) that fails the curve equation returns the
CurveError return naming the offending point, with an empty trace,
before any scalar multiplication. -/
theorem c9_curve_errors (a b p Gx Gy n d k Qx Qy r s : Int) (message : String) :
    (is_on_curve ⟨a, b, p⟩ (.finite Gx Gy) = false →
      ecdsa_educational_sign a b p Gx Gy n d k message = .curveError Gx Gy []) ∧
    (is_on_curve ⟨a, b, p⟩ (.finite Gx Gy) = false →
      ecdsa_educational_verify a b p Gx Gy n Qx Qy r s message =
        .curveErrorG Gx Gy []) ∧
    (is_on_curve ⟨a, b, p⟩ (.finite Gx Gy) = true →
      is_on_curve ⟨a, b, p⟩ (.finite Qx Qy) = false →
      ecdsa_educational_verify a b p Gx Gy n Qx Qy r s message =
        .curveErrorQ Qx Qy []) := by
  refine ⟨fun h => ?_, fun h => ?_, fun hG hQ => ?_⟩ <;>
    simp [ecdsa_educational_sign, ecdsa_educational_verify, *]

/-- C9 (witness): `(1,1)` is not on `y² = x³ + 2x + 3 (mod 97)`;
sign and verify reject it with the empty-trace curve errors. -/
theorem c9_curve_errors_witness :
    ecdsa_educational_sign 2 3 97 1 1 5 3 2 "Test" = .curveError 1 1 [] ∧
    ecdsa_educational_verify 2 3 97 1 1 5 1 1 1 1 "Test" = .curveErrorG 1 1 [] ∧
    ecdsa_educational_verify 2 3 97 3 6 5 1 1 1 1 "Test" = .curveErrorQ 1 1 [] :=
  ⟨(c9_curve_errors 2 3 97 1 1 5 3 2 1 1 1 1 "Test").1 (by decide),
   (c9_curve_errors 2 3 97 1 1 5 3 2 1 1 1 1 "Test").2.1 (by decide),
   (c9_curve_errors 2 3 97 3 6 5 3 2 1 1 1 1 "Test").2.2 (by decide) (by decide)⟩

/-! ### Claim C6 -/

/-- C6 (counterexample): with unreduced input coordinates the
zero-denominator interception fails: on the curve `(0, 0, 5)` doubling
`(1, 5)` passes the `y1 == 0` check (`5 ≠ 0`) yet has denominator
`(2·5) mod 5 = 0`, and `point_add` fails with the NoInverseError. -/
theorem c6_counterexample :
    point_add ⟨0, 0, 5⟩ (.finite 1 5) (.finite 1 5) = .error (.noInverse 0 5) := by
  decide

/-- C6 (amended): for an odd prime modulus and input points whose
coordinates are normalized into `[0, p)`, every denominator handed to
`mod_inverse` inside `point_add` is nonzero mod `p`, and `point_add`
never fails: it always returns a point. -/
theorem c6_point_add_ok (pn : Nat) (c : EllipticCurve) (hp : c.p = (pn : Int))
    (hprime : pn.Prime) (hodd : pn ≠ 2) (P Q : Point)
    (hP : InRange c P) (hQ : InRange c Q) :
    ∃ R, point_add c P Q = .ok R := by
  have hpn0 : (0 : Int) < (pn : Int) := by exact_mod_cast hprime.pos
  cases P with
  | infinity => exact ⟨Q, by cases Q <;> rfl⟩
  | finite x1 y1 =>
    cases Q with
    | infinity => exact ⟨.finite x1 y1, rfl⟩
    | finite x2 y2 =>
      obtain ⟨hx10, hx11, hy10, hy11⟩ := hP
      obtain ⟨hx20, hx21, hy20, hy21⟩ := hQ
      rw [hp] at hx11 hy11 hx21 hy21
      by_cases hPQ : x1 = x2 ∧ y1 = y2
      · obtain ⟨h1, h2⟩ := hPQ
        subst h1
        subst h2
        by_cases hy : y1 = 0
        · exact ⟨.infinity, by simp [point_add, hy]⟩
        · have hy0 : 0 < y1 := lt_of_le_of_ne hy10 (Ne.symm hy)
          have hd := double_denom_pos hprime hodd hy0 hy11
          obtain ⟨v, hv, -, -, -⟩ := mod_inverse_prime hprime hd (pyMod_lt _ hpn0)
          exact ⟨point_add_final c x1 y1 x1 (pyMod (pyMod (3 * x1 * x1 + c.a) (pn : Int) * v) (pn : Int)),
            by simp [point_add, hy, hp, hv, Except.map]⟩
      · by_cases hx : x1 = x2
        · have hy2 : y1 ≠ y2 := fun h => hPQ ⟨hx, h⟩
          exact ⟨.infinity, by simp [point_add, hx, hy2]⟩
        · have hd := chord_denom_pos hprime.pos hx hx10 hx11 hx20 hx21
          obtain ⟨v, hv, -, -, -⟩ := mod_inverse_prime hprime hd (pyMod_lt _ hpn0)
          exact ⟨point_add_final c x1 y1 x2 (pyMod (pyMod (y2 - y1) (pn : Int) * v) (pn : Int)),
            by simp [point_add, hPQ, hx, hp, hv, Except.map]⟩

/-- C6 (witness): the amended claim on the curve `(2, 3, 97)` adding
`(3, 6)` and `(80, 10)`. -/
theorem c6_point_add_ok_witness :
    ∃ R, point_add ⟨2, 3, 97⟩ (.finite 3 6) (.finite 80 10) = .ok R :=
  c6_point_add_ok 97 ⟨2, 3, 97⟩ (by decide) (by decide) (by decide)
    (.finite 3 6) (.finite 80 10) (by decide) (by decide)

/-! ### Claim C3 -/

/-- Commutativity of `point_add` in the chord case: the two slope
computations agree modulo `p`, hence so do the resulting points. -/
theorem point_add_comm_chord (pn : Nat) (c : EllipticCurve) (hp : c.p = (pn : Int))
    (hprime : pn.Prime) (x1 y1 x2 y2 : Int)
    (hx10 : 0 ≤ x1) (hx11 : x1 < (pn : Int)) (hx20 : 0 ≤ x2) (hx21 : x2 < (pn : Int))
    (hx : x1 ≠ x2) :
    point_add c (.finite x1 y1) (.finite x2 y2) =
      point_add c (.finite x2 y2) (.finite x1 y1) := by
  haveI := Fact.mk hprime
  have hpn0 : (0 : Int) < (pn : Int) := by exact_mod_cast hprime.pos
  have hd1 := chord_denom_pos hprime.pos hx hx10 hx11 hx20 hx21
  have hd2 := chord_denom_pos hprime.pos (Ne.symm hx) hx20 hx21 hx10 hx11
  obtain ⟨v1, hv1, hv10, hv11, hv1i⟩ := mod_inverse_prime hprime hd1 (pyMod_lt _ hpn0)
  obtain ⟨v2, hv2, hv20, hv21, hv2i⟩ := mod_inverse_prime hprime hd2 (pyMod_lt _ hpn0)
  have hPQ1 : ¬(x1 = x2 ∧ y1 = y2) := fun h => hx h.1
  have hPQ2 : ¬(x2 = x1 ∧ y2 = y1) := fun h => hx h.1.symm
  have hδ1 : ((pyMod (x2 - x1) (pn : Int) : Int) : ZMod pn) =
      (x2 : ZMod pn) - (x1 : ZMod pn) := by
    rw [intCast_pyMod]; push_cast; ring
  have hδ2 : ((pyMod (x1 - x2) (pn : Int) : Int) : ZMod pn) =
      (x1 : ZMod pn) - (x2 : ZMod pn) := by
    rw [intCast_pyMod]; push_cast; ring
  rw [hδ1] at hv1i
  rw [hδ2] at hv2i
  have hne1 : (x2 : ZMod pn) - (x1 : ZMod pn) ≠ 0 := by
    intro h; rw [h, zero_mul] at hv1i; exact zero_ne_one hv1i
  have hne2 : (x1 : ZMod pn) - (x2 : ZMod pn) ≠ 0 := by
    intro h; rw [h, zero_mul] at hv2i; exact zero_ne_one hv2i
  have hvv1 : ((v1 : Int) : ZMod pn) = ((x2 : ZMod pn) - (x1 : ZMod pn))⁻¹ :=
    eq_inv_of_mul_eq_one_right hv1i
  have hvv2 : ((v2 : Int) : ZMod pn) = ((x1 : ZMod pn) - (x2 : ZMod pn))⁻¹ :=
    eq_inv_of_mul_eq_one_right hv2i
  have hlam : pyMod (pyMod (y2 - y1) (pn : Int) * v1) (pn : Int) =
      pyMod (pyMod (y1 - y2) (pn : Int) * v2) (pn : Int) := by
    apply intCast_inj_of_lt (pyMod_nonneg _ hpn0) (pyMod_lt _ hpn0)
      (pyMod_nonneg _ hpn0) (pyMod_lt _ hpn0)
    rw [intCast_pyMod, intCast_pyMod]
    push_cast
    rw [intCast_pyMod, intCast_pyMod, hvv1, hvv2]
    push_cast
    field_simp
    ring
  rw [show point_add c (.finite x1 y1) (.finite x2 y2) =
      .ok (point_add_final c x1 y1 x2 (pyMod (pyMod (y2 - y1) (pn : Int) * v1) (pn : Int)))
      from by simp [point_add, hPQ1, hx, hp, hv1, Except.map]]
  rw [show point_add c (.finite x2 y2) (.finite x1 y1) =
      .ok (point_add_final c x2 y2 x1 (pyMod (pyMod (y1 - y2) (pn : Int) * v2) (pn : Int)))
      from by simp [point_add, hPQ2, Ne.symm hx, hp, hv2, Except.map]]
  rw [← hlam]
  congr 1
  simp only [point_add_final, hp]
  have hLc : ((pyMod (pyMod (y2 - y1) (pn : Int) * v1) (pn : Int) : Int) : ZMod pn) =
      ((y2 : ZMod pn) - (y1 : ZMod pn)) * ((x2 : ZMod pn) - (x1 : ZMod pn))⁻¹ := by
    rw [intCast_pyMod]
    push_cast
    rw [intCast_pyMod, hvv1]
    push_cast
    ring
  have hX : pyMod (pyMod (pyMod (y2 - y1) (pn : Int) * v1) (pn : Int) *
        pyMod (pyMod (y2 - y1) (pn : Int) * v1) (pn : Int) - x1 - x2) (pn : Int) =
      pyMod (pyMod (pyMod (y2 - y1) (pn : Int) * v1) (pn : Int) *
        pyMod (pyMod (y2 - y1) (pn : Int) * v1) (pn : Int) - x2 - x1) (pn : Int) := by
    congr 1
    ring
  rw [hX]
  congr 1
  apply intCast_inj_of_lt (pyMod_nonneg _ hpn0) (pyMod_lt _ hpn0)
    (pyMod_nonneg _ hpn0) (pyMod_lt _ hpn0)
  rw [intCast_pyMod, intCast_pyMod]
  push_cast
  rw [hLc]
  field_simp
  ring

/-- C3: the curve group-law identities of the source, for points on
the curve (coordinates normalized, odd prime modulus):
`P + Infinity = P`, commutativity, `scalar_multiply(2, P) = P + P`,
and `scalar_multiply(0, P) = Infinity`. -/
theorem c3_group_law (pn : Nat) (c : EllipticCurve) (hp : c.p = (pn : Int))
    (hprime : pn.Prime) (hodd : pn ≠ 2) (P Q : Point)
    (hP : OnCurve c P) (hQ : OnCurve c Q) :
    point_add c P .infinity = .ok P ∧
    point_add c P Q = point_add c Q P ∧
    scalar_multiply c 2 P = point_add c P P ∧
    scalar_multiply c 0 P = .ok .infinity := by
  obtain ⟨hPcurve, hPrange⟩ := hP
  obtain ⟨hQcurve, hQrange⟩ := hQ
  refine ⟨by cases P <;> rfl, ?_, ?_, by simp [scalar_multiply]⟩
  · cases P with
    | infinity => cases Q <;> rfl
    | finite x1 y1 =>
      cases Q with
      | infinity => rfl
      | finite x2 y2 =>
        obtain ⟨hx10, hx11, hy10, hy11⟩ := hPrange
        obtain ⟨hx20, hx21, hy20, hy21⟩ := hQrange
        rw [hp] at hx11 hy11 hx21 hy21
        by_cases hPQ : x1 = x2 ∧ y1 = y2
        · obtain ⟨h1, h2⟩ := hPQ
          subst h1
          subst h2
          rfl
        · by_cases hx : x1 = x2
          · have hy2 : y1 ≠ y2 := fun h => hPQ ⟨hx, h⟩
            subst hx
            simp [point_add, hy2, Ne.symm hy2]
          · exact point_add_comm_chord pn c hp hprime x1 y1 x2 y2
              hx10 hx11 hx20 hx21 hx
  · cases P with
    | infinity => simp [scalar_multiply, point_add]
    | finite x1 y1 =>
      have hbits : natBits (2 : Int).toNat = [false, true] := by decide
      cases h : point_add c (.finite x1 y1) (.finite x1 y1) with
      | error e =>
        simp [scalar_multiply, hbits, scalarLoop, h, Bind.bind, Except.bind]
      | ok T =>
        have h2 : scalar_multiply c 2 (.finite x1 y1) = point_add c .infinity T := by
          simp [scalar_multiply, hbits, scalarLoop, h, Bind.bind, Except.bind]
        rw [h2]
        cases T <;> rfl

/-! ### Claim C2 -/

/-- The source's curve-membership test coincides with the Weierstrass
equation over `ZMod p`. -/
theorem is_on_curve_iff (pn : Nat) (a b x y : Int) :
    is_on_curve ⟨a, b, (pn : Int)⟩ (.finite x y) = true ↔
      (Wcurve a b pn).Equation (x : ZMod pn) (y : ZMod pn) := by
  rw [WeierstrassCurve.Affine.equation_iff]
  simp only [Wcurve]
  have e1 : is_on_curve ⟨a, b, (pn : Int)⟩ (.finite x y) = true ↔
      pyMod (y * y - (x ^ 3 + a * x + b)) (pn : Int) = 0 := by
    simp [is_on_curve]
  rw [e1, ← intCast_eq_zero_iff_pyMod]
  constructor
  · intro h
    push_cast at h
    linear_combination h
  · intro h
    push_cast
    linear_combination h

/-- If `lam` reduces to the Mathlib slope of the two points, the shared
tail of `point_add` produces a point satisfying the curve equation. -/
theorem point_add_final_on_curve (pn : Nat) [Fact pn.Prime] (a b x1 y1 x2 y2 lam : Int)
    (h1 : (Wcurve a b pn).Equation (x1 : ZMod pn) (y1 : ZMod pn))
    (h2 : (Wcurve a b pn).Equation (x2 : ZMod pn) (y2 : ZMod pn))
    (hxy : (x1 : ZMod pn) = (x2 : ZMod pn) →
      (y1 : ZMod pn) ≠ (Wcurve a b pn).negY (x2 : ZMod pn) (y2 : ZMod pn))
    (hlam : ((lam : Int) : ZMod pn) =
      (Wcurve a b pn).slope (x1 : ZMod pn) (x2 : ZMod pn) (y1 : ZMod pn) (y2 : ZMod pn)) :
    is_on_curve ⟨a, b, (pn : Int)⟩ (point_add_final ⟨a, b, (pn : Int)⟩ x1 y1 x2 lam) = true := by
  simp only [point_add_final]
  rw [is_on_curve_iff pn a b]
  have hx3 : ((pyMod (lam * lam - x1 - x2) (pn : Int) : Int) : ZMod pn) =
      (Wcurve a b pn).addX (x1 : ZMod pn) (x2 : ZMod pn)
        ((Wcurve a b pn).slope (x1 : ZMod pn) (x2 : ZMod pn) (y1 : ZMod pn) (y2 : ZMod pn)) := by
    rw [intCast_pyMod]
    push_cast
    rw [hlam]
    simp only [WeierstrassCurve.Affine.addX, Wcurve]
    ring
  have hy3 : ((pyMod (lam * (x1 - pyMod (lam * lam - x1 - x2) (pn : Int)) - y1)
        (pn : Int) : Int) : ZMod pn) =
      (Wcurve a b pn).addY (x1 : ZMod pn) (x2 : ZMod pn) (y1 : ZMod pn)
        ((Wcurve a b pn).slope (x1 : ZMod pn) (x2 : ZMod pn) (y1 : ZMod pn) (y2 : ZMod pn)) := by
    rw [intCast_pyMod]
    push_cast
    rw [hx3, hlam]
    simp only [WeierstrassCurve.Affine.addY, WeierstrassCurve.Affine.negAddY,
      WeierstrassCurve.Affine.negY, WeierstrassCurve.Affine.addX, Wcurve]
    ring
  rw [hx3, hy3]
  exact WeierstrassCurve.Affine.equation_add h1 h2 hxy

/-- C2: for an odd prime modulus, `point_add` maps points on the curve
(in the sense of `is_on_curve`, with normalized coordinates) to points
on the curve: the sum is `Infinity` or satisfies the curve equation. -/
theorem c2_point_add_on_curve (pn : Nat) (c : EllipticCurve) (hp : c.p = (pn : Int))
    (hprime : pn.Prime) (hodd : pn ≠ 2) (P Q : Point)
    (hP : OnCurve c P) (hQ : OnCurve c Q) :
    ∃ R, point_add c P Q = .ok R ∧ is_on_curve c R = true := by
  haveI := Fact.mk hprime
  have hpn0 : (0 : Int) < (pn : Int) := by exact_mod_cast hprime.pos
  obtain ⟨hPc, hPr⟩ := hP
  obtain ⟨hQc, hQr⟩ := hQ
  rcases c with ⟨a, b, cp⟩
  obtain rfl : cp = (pn : Int) := hp
  cases P with
  | infinity => exact ⟨Q, by cases Q <;> rfl, hQc⟩
  | finite x1 y1 =>
    cases Q with
    | infinity => exact ⟨.finite x1 y1, rfl, hPc⟩
    | finite x2 y2 =>
      obtain ⟨hx10, hx11, hy10, hy11⟩ := hPr
      obtain ⟨hx20, hx21, hy20, hy21⟩ := hQr
      have h1 : (Wcurve a b pn).Equation (x1 : ZMod pn) (y1 : ZMod pn) :=
        (is_on_curve_iff pn a b x1 y1).mp hPc
      have h2 : (Wcurve a b pn).Equation (x2 : ZMod pn) (y2 : ZMod pn) :=
        (is_on_curve_iff pn a b x2 y2).mp hQc
      have h2ne : (2 : ZMod pn) ≠ 0 := by
        intro hh
        have : ((2 : Int) : ZMod pn) = 0 := by exact_mod_cast hh
        have hdvd : (pn : Int) ∣ 2 := (ZMod.intCast_zmod_eq_zero_iff_dvd 2 pn).mp this
        have hle : (pn : Int) ≤ 2 := Int.le_of_dvd (by norm_num) hdvd
        have h2' : (2 : Int) ≤ (pn : Int) := by exact_mod_cast hprime.two_le
        exact hodd (by omega)
      by_cases hPQ : x1 = x2 ∧ y1 = y2
      · obtain ⟨h1', h2'⟩ := hPQ
        subst h1'
        subst h2'
        by_cases hy : y1 = 0
        · exact ⟨.infinity, by simp [point_add, hy], rfl⟩
        · have hy0 : 0 < y1 := lt_of_le_of_ne hy10 (Ne.symm hy)
          have hd := double_denom_pos hprime hodd hy0 hy11
          obtain ⟨v, hv, hv0, hv1lt, hvi⟩ := mod_inverse_prime hprime hd (pyMod_lt _ hpn0)
          have hy1ne : (y1 : ZMod pn) ≠ 0 := by
            intro hh
            exact hy (intCast_inj_of_lt hy10 hy11 le_rfl hpn0 (by exact_mod_cast hh))
          have hypne : (y1 : ZMod pn) ≠
              (Wcurve a b pn).negY (x1 : ZMod pn) (y1 : ZMod pn) := by
            simp only [Wcurve, WeierstrassCurve.Affine.negY]
            intro hh
            have hzero : (2 : ZMod pn) * (y1 : ZMod pn) = 0 := by
              linear_combination hh
            rcases mul_eq_zero.mp hzero with h' | h'
            · exact h2ne h'
            · exact hy1ne h'
          have hdc : ((pyMod (2 * y1) (pn : Int) : Int) : ZMod pn) =
              2 * (y1 : ZMod pn) := by
            rw [intCast_pyMod]; push_cast; ring
          rw [hdc] at hvi
          have hvinv : ((v : Int) : ZMod pn) = ((2 : ZMod pn) * (y1 : ZMod pn))⁻¹ :=
            eq_inv_of_mul_eq_one_right hvi
          have hslope : ((pyMod (pyMod (3 * x1 * x1 + a) (pn : Int) * v)
                (pn : Int) : Int) : ZMod pn) =
              (Wcurve a b pn).slope (x1 : ZMod pn) (x1 : ZMod pn)
                (y1 : ZMod pn) (y1 : ZMod pn) := by
            rw [WeierstrassCurve.Affine.slope_of_Y_ne rfl hypne]
            have hden : (y1 : ZMod pn) -
                (Wcurve a b pn).negY (x1 : ZMod pn) (y1 : ZMod pn) =
                2 * (y1 : ZMod pn) := by
              simp only [Wcurve, WeierstrassCurve.Affine.negY]
              ring
            have hnum : 3 * (x1 : ZMod pn) ^ 2 + 2 * (Wcurve a b pn).a₂ * (x1 : ZMod pn) +
                (Wcurve a b pn).a₄ - (Wcurve a b pn).a₁ * (y1 : ZMod pn) =
                3 * (x1 : ZMod pn) * (x1 : ZMod pn) + (a : ZMod pn) := by
              simp only [Wcurve]
              ring
            rw [hden, hnum, div_eq_mul_inv]
            rw [intCast_pyMod]
            push_cast
            rw [intCast_pyMod, hvinv]
            push_cast
            ring
          refine ⟨point_add_final ⟨a, b, (pn : Int)⟩ x1 y1 x1
              (pyMod (pyMod (3 * x1 * x1 + a) (pn : Int) * v) (pn : Int)),
            by simp [point_add, hy, hv, Except.map], ?_⟩
          exact point_add_final_on_curve pn a b x1 y1 x1 y1 _ h1 h1
            (fun _ => hypne) hslope
      · by_cases hx : x1 = x2
        · have hy2 : y1 ≠ y2 := fun h => hPQ ⟨hx, h⟩
          subst hx
          exact ⟨.infinity, by simp [point_add, hy2], rfl⟩
        · have hd := chord_denom_pos hprime.pos hx hx10 hx11 hx20 hx21
          obtain ⟨v, hv, hv0, hv1lt, hvi⟩ := mod_inverse_prime hprime hd (pyMod_lt _ hpn0)
          have hxz : (x1 : ZMod pn) ≠ (x2 : ZMod pn) := by
            intro hh
            exact hx (intCast_inj_of_lt hx10 hx11 hx20 hx21 hh)
          have hδne : (x2 : ZMod pn) - (x1 : ZMod pn) ≠ 0 := by
            intro hh
            apply hxz
            linear_combination -hh
          have hδne' : (x1 : ZMod pn) - (x2 : ZMod pn) ≠ 0 := by
            intro hh
            apply hxz
            linear_combination hh
          have hdc : ((pyMod (x2 - x1) (pn : Int) : Int) : ZMod pn) =
              (x2 : ZMod pn) - (x1 : ZMod pn) := by
            rw [intCast_pyMod]; push_cast; ring
          rw [hdc] at hvi
          have hvinv : ((v : Int) : ZMod pn) = ((x2 : ZMod pn) - (x1 : ZMod pn))⁻¹ :=
            eq_inv_of_mul_eq_one_right hvi
          have hslope : ((pyMod (pyMod (y2 - y1) (pn : Int) * v)
                (pn : Int) : Int) : ZMod pn) =
              (Wcurve a b pn).slope (x1 : ZMod pn) (x2 : ZMod pn)
                (y1 : ZMod pn) (y2 : ZMod pn) := by
            rw [WeierstrassCurve.Affine.slope_of_X_ne hxz, div_eq_mul_inv]
            rw [intCast_pyMod]
            push_cast
            rw [intCast_pyMod, hvinv]
            push_cast
            field_simp
            ring
          refine ⟨point_add_final ⟨a, b, (pn : Int)⟩ x1 y1 x2
              (pyMod (pyMod (y2 - y1) (pn : Int) * v) (pn : Int)),
            by simp [point_add, hPQ, hx, hv, Except.map], ?_⟩
          exact point_add_final_on_curve pn a b x1 y1 x2 y2 _ h1 h2
            (fun hh => absurd hh hxz) hslope

/-- C2 (witness): adding `(3, 6)` and `(80, 10)` on
`y² = x³ + 2x + 3 (mod 97)` yields a point on the curve. -/
theorem c2_point_add_on_curve_witness :
    ∃ R, point_add ⟨2, 3, 97⟩ (.finite 3 6) (.finite 80 10) = .ok R ∧
      is_on_curve ⟨2, 3, 97⟩ R = true :=
  c2_point_add_on_curve 97 ⟨2, 3, 97⟩ (by decide) (by decide) (by decide)
    (.finite 3 6) (.finite 80 10) (by decide) (by decide)

/-- C3 (witness): the group-law identities on `y² = x³ + 2x + 3
(mod 97)` with `P = (3, 6)` and `Q = (80, 10)`. -/
theorem c3_group_law_witness :
    point_add ⟨2, 3, 97⟩ (.finite 3 6) .infinity = .ok (.finite 3 6) ∧
    point_add ⟨2, 3, 97⟩ (.finite 3 6) (.finite 80 10) =
      point_add ⟨2, 3, 97⟩ (.finite 80 10) (.finite 3 6) ∧
    scalar_multiply ⟨2, 3, 97⟩ 2 (.finite 3 6) =
      point_add ⟨2, 3, 97⟩ (.finite 3 6) (.finite 3 6) ∧
    scalar_multiply ⟨2, 3, 97⟩ 0 (.finite 3 6) = .ok .infinity :=
  c3_group_law 97 ⟨2, 3, 97⟩ (by decide) (by decide) (by decide)
    (.finite 3 6) (.finite 80 10) (by decide) (by decide)
